import Mathlib

/-
Verification of the lintre lambda-calculus interpreter
(src/interpreter.rs and src/main.rs) against its specification.

The embedding models the Rust interpreter faithfully:
  * `Expr` is the AST variant set used by the interpreter and main
    (Var, Lambda, Apply, Define, Sequence).
  * `Value` is `Closure(params, body, env)` or `Unit`; `Env` models the
    `HashMap<String, Value>` as an association list whose operations
    (`envGet`, `envInsert`, `envRemove`) have the map's lookup semantics.
  * The Rust `substitute` uses a process-global fresh-name counter
    (`COUNTER` / `fresh_var_name`); here that counter is threaded
    explicitly.  Since `substitute`'s recursion is not structural (it
    re-substitutes into already-renamed bodies), it is embedded as the
    fuel-indexed family `subF`; `subF_total` below proves the fuel is
    irrelevant (enough fuel always exists) and `subF_mono` that results
    are stable under more fuel.
  * `eval` mutates `&mut Env` and `&mut usize` step counter; here it is
    the fuel-indexed family `evalF : Nat → Expr → St → Option (Except
    String Value × St)` returning the result together with the final
    state (the state is returned also on `Err`, matching `&mut`
    semantics where mutations survive an early return).  The trace flag
    only prints and is omitted.
  * `eval_document` from main.rs is `evalDocF`.
-/

inductive Expr where
  | Var : String → Expr
  | Lambda : List String → Expr → Expr
  | Apply : Expr → Expr → Expr
  | Define : String → Expr → Expr
  | Sequence : List Expr → Expr

inductive Value where
  | Closure : List String → Expr → List (String × Value) → Value
  | Unit : Value

/- `pub type Env = HashMap<String, Value>` -/
abbrev Env := List (String × Value)

/- The interpreter state threaded through `eval`: the current
environment (`&mut Env`), the beta-reduction step counter
(`&mut usize step_count`), and the global fresh-name counter
(`static COUNTER: AtomicUsize`). -/
structure St where
  env : Env
  step : Nat
  fresh : Nat

/- `env.get(name)` -/
def envGet : Env → String → Option Value
  | [], _ => none
  | (m, v) :: rest, n => if m = n then some v else envGet rest n

/- `env.insert(name, value)`: overwrite the binding if the key is
present, otherwise add it. -/
def envInsert : Env → String → Value → Env
  | [], n, v => [(n, v)]
  | (m, w) :: rest, n, v =>
      if m = n then (n, v) :: rest else (m, w) :: envInsert rest n v

/- `env.remove(name)` -/
def envRemove : Env → String → Env
  | [], _ => []
  | (m, w) :: rest, n => if m = n then rest else (m, w) :: envRemove rest n

/- `for name in defined_vars { env.remove(&name); }` -/
def removeAll (env : Env) (names : List String) : Env :=
  names.foldl envRemove env

/- `for (name, old_val) in old_values { env.insert(name, old_val); }` -/
def insertAll (env : Env) (olds : List (String × Value)) : Env :=
  olds.foldl (fun e p => envInsert e p.1 p.2) env

/- `fn to_expr(value: &Value) -> Expr` -/
def toExpr : Value → Expr
  | .Closure ps b _ => .Lambda ps b
  | .Unit => .Var "unit"

/- The divergence-guard error message. -/
def divMsg : String := "Infinite beta reduction detected!"

/- The renaming loop in `substitute`'s `Lambda` arm: for each parameter
equal to `var`, draw a fresh name `p#id` from the counter and
re-substitute the fresh name for `p` throughout the (evolving) body.
`sub` is the substitution function itself, passed in so that this loop
is structurally recursive on the parameter list. -/
def subLamLoop (sub : Expr → String → Expr → Nat → Option (Expr × Nat)) :
    List String → String → Expr → Nat → Option (List String × Expr × Nat)
  | [], _, b, n => some ([], b, n)
  | p :: ps, var, b, n =>
      if p = var then
        let fresh := p ++ "#" ++ toString n
        match sub b p (.Var fresh) (n + 1) with
        | none => none
        | some (b1, n1) =>
            match subLamLoop sub ps var b1 n1 with
            | none => none
            | some (ps1, b2, n2) => some (fresh :: ps1, b2, n2)
      else
        match subLamLoop sub ps var b n with
        | none => none
        | some (ps1, b1, n1) => some (p :: ps1, b1, n1)

/- `Sequence(exprs) => exprs.iter().map(|e| substitute(e, var, value))` -/
def subSeqGo (sub : Expr → String → Expr → Nat → Option (Expr × Nat)) :
    List Expr → String → Expr → Nat → Option (List Expr × Nat)
  | [], _, _, n => some ([], n)
  | e :: es, var, val, n =>
      match sub e var val n with
      | none => none
      | some (e1, n1) =>
          match subSeqGo sub es var val n1 with
          | none => none
          | some (es1, n2) => some (e1 :: es1, n2)

/- `pub fn substitute(expr: &Expr, var: &str, value: &Expr) -> Expr`,
as a fuel-indexed family (the Rust recursion re-enters `substitute` on
already-renamed bodies, so it is not structural; `subF_total` shows
enough fuel always exists and `subF_mono` that the result does not
depend on the fuel). The `Nat` argument and result thread the global
fresh-name counter. -/
def subF : Nat → Expr → String → Expr → Nat → Option (Expr × Nat)
  | 0, _, _, _, _ => none
  | fuel + 1, e, var, val, n =>
      match e with
      | .Var name => some (if name = var then val else .Var name, n)
      | .Apply f a =>
          match subF fuel f var val n with
          | none => none
          | some (f1, n1) =>
              match subF fuel a var val n1 with
              | none => none
              | some (a1, n2) => some (.Apply f1 a1, n2)
      | .Lambda ps b =>
          if ps.contains var then
            match subLamLoop (subF fuel) ps var b n with
            | none => none
            | some (ps1, b1, n1) =>
                match subF fuel b1 var val n1 with
                | none => none
                | some (b2, n2) => some (.Lambda ps1 b2, n2)
          else
            match subF fuel b var val n with
            | none => none
            | some (b1, n1) => some (.Lambda ps b1, n1)
      | .Define name rhs =>
          match subF fuel rhs var val n with
          | none => none
          | some (r1, n1) => some (.Define name r1, n1)
      | .Sequence es =>
          match subSeqGo (subF fuel) es var val n with
          | none => none
          | some (es1, n1) => some (.Sequence es1, n1)

/- The accumulator of `eval`'s `Sequence` arm: `last`, `defined_vars`,
`old_values`. `old_values` is a `HashMap`, so recording an old value
uses overwriting insertion (`envInsert`). -/
structure SeqAcc where
  last : Value
  defined : List String
  olds : List (String × Value)

/- The element loop of `eval`'s `Sequence` arm.  `ev` is the evaluator
for the elements.  Returns `none` when `ev` does (out of fuel),
`Except.error (msg, st)` when an element's evaluation fails (the `?`
early return, carrying the mutated state), and `Except.ok (st, acc)`
when the walk completes. -/
def seqGo (ev : Expr → St → Option (Except String Value × St)) :
    List Expr → St → SeqAcc → Option (Except (String × St) (St × SeqAcc))
  | [], st, acc => some (.ok (st, acc))
  | e :: es, st, acc =>
      match e with
      | .Define name rhs =>
          match ev rhs st with
          | none => none
          | some (.error m, st1) => some (.error (m, st1))
          | some (.ok v, st1) =>
              match envGet st1.env name with
              | some old =>
                  seqGo ev es ⟨envInsert st1.env name v, st1.step, st1.fresh⟩
                    ⟨acc.last, acc.defined, envInsert acc.olds name old⟩
              | none =>
                  seqGo ev es ⟨envInsert st1.env name v, st1.step, st1.fresh⟩
                    ⟨acc.last, acc.defined ++ [name], acc.olds⟩
      | _ =>
          match ev e st with
          | none => none
          | some (.error m, st1) => some (.error (m, st1))
          | some (.ok v, st1) => seqGo ev es st1 ⟨v, acc.defined, acc.olds⟩

/- `pub fn eval(expr, env, trace, step_count) -> Result<Value, String>`,
as a fuel-indexed family.  The pair returned alongside the result is
the final state (caller-visible environment, step counter, fresh-name
counter), returned also on error to match `&mut` semantics.  In the
`Apply` arm the closure body is evaluated under (a copy of) the
closure's captured environment, so the caller's environment after an
application is the one left by evaluating `func` and `arg`, while the
step and fresh counters are global and keep threading. -/
def evalF : Nat → Expr → St → Option (Except String Value × St)
  | 0, _, _ => none
  | fuel + 1, e, st =>
      match e with
      | .Var name =>
          match envGet st.env name with
          | some v => some (.ok v, st)
          | none => some (.error ("Undefined variable: " ++ name), st)
      | .Lambda ps b => some (.ok (.Closure ps b st.env), st)
      | .Apply f a =>
          if st.step + 1 > 10000 then
            some (.error divMsg, ⟨st.env, st.step + 1, st.fresh⟩)
          else
            match evalF fuel f ⟨st.env, st.step + 1, st.fresh⟩ with
            | none => none
            | some (.error m, st2) => some (.error m, st2)
            | some (.ok fv, st2) =>
                match evalF fuel a st2 with
                | none => none
                | some (.error m, st3) => some (.error m, st3)
                | some (.ok av, st3) =>
                    match fv with
                    | .Unit => some (.error "Trying to call a non-function", st3)
                    | .Closure ps b cenv =>
                        match ps with
                        | [] => some (.error "Too many arguments", st3)
                        | p :: ps1 =>
                            match subF fuel b p (toExpr av) st3.fresh with
                            | none => none
                            | some (b1, fr1) =>
                                match ps1 with
                                | [] =>
                                    match evalF fuel b1 ⟨cenv, st3.step, fr1⟩ with
                                    | none => none
                                    | some (r, st4) =>
                                        some (r, ⟨st3.env, st4.step, st4.fresh⟩)
                                | _ =>
                                    some (.ok (.Closure ps1 b1 cenv),
                                      ⟨st3.env, st3.step, fr1⟩)
      | .Define name rhs =>
          match evalF fuel rhs st with
          | none => none
          | some (.error m, st1) => some (.error m, st1)
          | some (.ok v, st1) =>
              some (.ok v, ⟨envInsert st1.env name v, st1.step, st1.fresh⟩)
      | .Sequence es =>
          match seqGo (evalF fuel) es st ⟨.Unit, [], []⟩ with
          | none => none
          | some (.error (m, st1)) => some (.error m, st1)
          | some (.ok (st1, acc)) =>
              some (.ok acc.last,
                ⟨insertAll (removeAll st1.env acc.defined) acc.olds,
                 st1.step, st1.fresh⟩)

/- The element loop of `eval_document` (main.rs): every element,
Defines included, is evaluated with `eval`, `last` tracks each value,
and there is no end-of-document restoration. -/
def docGo (ev : Expr → St → Option (Except String Value × St)) :
    List Expr → St → Value → Option (Except String Value × St)
  | [], st, last => some (.ok last, st)
  | e :: es, st, _ =>
      match ev e st with
      | none => none
      | some (.error m, st1) => some (.error m, st1)
      | some (.ok v, st1) => docGo ev es st1 v

/- `fn eval_document(expr, env, step_count, trace_mode)` from main.rs
(the trace mode only selects printing and is omitted). -/
def evalDocF (fuel : Nat) (e : Expr) (st : St) :
    Option (Except String Value × St) :=
  match e with
  | .Sequence es => docGo (evalF fuel) es st .Unit
  | _ => evalF fuel e st

/- The self-application combinator `(L x . (x x)) (L x . (x x))`. -/
def omegaExpr : Expr :=
  .Apply (.Lambda ["x"] (.Apply (.Var "x") (.Var "x")))
    (.Lambda ["x"] (.Apply (.Var "x") (.Var "x")))

theorem subLamLoop_mono {sub1 sub2 : Expr → String → Expr → Nat → Option (Expr × Nat)}
    (H : ∀ b v r n x, sub1 b v r n = some x → sub2 b v r n = some x) :
    ∀ ps var b n x, subLamLoop sub1 ps var b n = some x →
      subLamLoop sub2 ps var b n = some x := by
  intro ps
  induction ps with
  | nil => intro var b n x h; simpa [subLamLoop] using h
  | cons p ps ih =>
    intro var b n x h
    by_cases hp : p = var
    · simp only [subLamLoop, if_pos hp] at h ⊢
      cases h1 : sub1 b p (.Var (p ++ "#" ++ toString n)) (n + 1) with
      | none => simp [h1] at h
      | some y =>
        obtain ⟨b1, n1⟩ := y
        simp only [h1] at h
        simp only [H _ _ _ _ _ h1]
        cases h2 : subLamLoop sub1 ps var b1 n1 with
        | none => simp [h2] at h
        | some z =>
          obtain ⟨ps1, b2, n2⟩ := z
          simp only [h2] at h
          simp only [ih _ _ _ _ h2]
          exact h
    · simp only [subLamLoop, if_neg hp] at h ⊢
      cases h2 : subLamLoop sub1 ps var b n with
      | none => simp [h2] at h
      | some z =>
        obtain ⟨ps1, b1, n1⟩ := z
        simp only [h2] at h
        simp only [ih _ _ _ _ h2]
        exact h

theorem subSeqGo_mono {sub1 sub2 : Expr → String → Expr → Nat → Option (Expr × Nat)}
    (H : ∀ b v r n x, sub1 b v r n = some x → sub2 b v r n = some x) :
    ∀ es var val n x, subSeqGo sub1 es var val n = some x →
      subSeqGo sub2 es var val n = some x := by
  intro es
  induction es with
  | nil => intro var val n x h; simpa [subSeqGo] using h
  | cons e es ih =>
    intro var val n x h
    simp only [subSeqGo] at h ⊢
    cases h1 : sub1 e var val n with
    | none => simp [h1] at h
    | some y =>
      obtain ⟨e1, n1⟩ := y
      simp only [h1] at h
      simp only [H _ _ _ _ _ h1]
      cases h2 : subSeqGo sub1 es var val n1 with
      | none => simp [h2] at h
      | some z =>
        obtain ⟨es1, n2⟩ := z
        simp only [h2] at h
        simp only [ih _ _ _ _ h2]
        exact h

theorem subF_mono : ∀ fuel1 fuel2 e var val n x, fuel1 ≤ fuel2 →
    subF fuel1 e var val n = some x → subF fuel2 e var val n = some x := by
  intro fuel1
  induction fuel1 with
  | zero => intro fuel2 e var val n x _ h; simp [subF] at h
  | succ fuel ih =>
    intro fuel2 e var val n x hle h
    obtain ⟨fuel2, rfl⟩ : ∃ k, fuel2 = k + 1 := by
      cases fuel2 with
      | zero => omega
      | succ k => exact ⟨k, rfl⟩
    have hle2 : fuel ≤ fuel2 := by omega
    have Hmono : ∀ b v r m x, subF fuel b v r m = some x → subF fuel2 b v r m = some x :=
      fun b v r m x => ih fuel2 b v r m x hle2
    cases e with
    | Var name => simpa [subF] using h
    | Apply f a =>
      simp only [subF] at h ⊢
      cases h1 : subF fuel f var val n with
      | none => simp [h1] at h
      | some y =>
        obtain ⟨f1, n1⟩ := y
        simp only [h1] at h
        simp only [Hmono _ _ _ _ _ h1]
        cases h2 : subF fuel a var val n1 with
        | none => simp [h2] at h
        | some z =>
          obtain ⟨a1, n2⟩ := z
          simp only [h2] at h
          simp only [Hmono _ _ _ _ _ h2]
          exact h
    | Lambda ps b =>
      simp only [subF] at h ⊢
      by_cases hc : ps.contains var
      · simp only [hc, if_true] at h ⊢
        cases h1 : subLamLoop (subF fuel) ps var b n with
        | none => simp [h1] at h
        | some y =>
          obtain ⟨ps1, b1, n1⟩ := y
          simp only [h1] at h
          simp only [subLamLoop_mono Hmono _ _ _ _ _ h1]
          cases h2 : subF fuel b1 var val n1 with
          | none => simp [h2] at h
          | some z =>
            obtain ⟨b2, n2⟩ := z
            simp only [h2] at h
            simp only [Hmono _ _ _ _ _ h2]
            exact h
      · simp only [hc, if_false] at h ⊢
        cases h1 : subF fuel b var val n with
        | none => simp [h1] at h
        | some y =>
          obtain ⟨b1, n1⟩ := y
          simp only [h1] at h
          simp only [Hmono _ _ _ _ _ h1]
          exact h
    | Define name rhs =>
      simp only [subF] at h ⊢
      cases h1 : subF fuel rhs var val n with
      | none => simp [h1] at h
      | some y =>
        obtain ⟨r1, n1⟩ := y
        simp only [h1] at h
        simp only [Hmono _ _ _ _ _ h1]
        exact h
    | Sequence es =>
      simp only [subF] at h ⊢
      cases h1 : subSeqGo (subF fuel) es var val n with
      | none => simp [h1] at h
      | some y =>
        obtain ⟨es1, n1⟩ := y
        simp only [h1] at h
        simp only [subSeqGo_mono Hmono _ _ _ _ _ h1]
        exact h

mutual
def sizeE : Expr → Nat
  | .Var _ => 1
  | .Lambda _ b => sizeE b + 1
  | .Apply f a => sizeE f + sizeE a + 1
  | .Define _ r => sizeE r + 1
  | .Sequence es => sizeListE es + 1
def sizeListE : List Expr → Nat
  | [] => 0
  | e :: es => sizeE e + sizeListE es + 1
end

theorem sizeE_pos : ∀ e : Expr, 1 ≤ sizeE e := by
  intro e
  cases e <;> simp [sizeE]

theorem sizeE_mem : ∀ (es : List Expr) (e : Expr), e ∈ es → sizeE e ≤ sizeListE es := by
  intro es
  induction es with
  | nil => intro e h; simp at h
  | cons x xs ih =>
    intro e h
    rcases List.mem_cons.mp h with h | h
    · subst h; simp [sizeListE]; omega
    · have := ih e h; simp [sizeListE]; omega

theorem subLamLoop_var_size {sub : Expr → String → Expr → Nat → Option (Expr × Nat)}
    (Hsub : ∀ b v f m b1 m1, sub b v (.Var f) m = some (b1, m1) → sizeE b1 = sizeE b) :
    ∀ ps var b n ps1 b1 n1, subLamLoop sub ps var b n = some (ps1, b1, n1) →
      sizeE b1 = sizeE b := by
  intro ps
  induction ps with
  | nil => intro var b n ps1 b1 n1 h; simp [subLamLoop] at h; rw [h.2.1]
  | cons p ps ih =>
    intro var b n ps1 b1 n1 h
    by_cases hp : p = var
    · simp only [subLamLoop, if_pos hp] at h
      cases h1 : sub b p (.Var (p ++ "#" ++ toString n)) (n + 1) with
      | none => simp [h1] at h
      | some y =>
        obtain ⟨bm, nm⟩ := y
        simp only [h1] at h
        cases h2 : subLamLoop sub ps var bm nm with
        | none => simp [h2] at h
        | some z =>
          obtain ⟨psz, bz, nz⟩ := z
          simp only [h2] at h
          obtain ⟨-, rfl, -⟩ := (by simpa using h : _ ∧ bz = b1 ∧ _)
          exact (ih _ _ _ _ _ _ h2).trans (Hsub _ _ _ _ _ _ h1)
    · simp only [subLamLoop, if_neg hp] at h
      cases h2 : subLamLoop sub ps var b n with
      | none => simp [h2] at h
      | some z =>
        obtain ⟨psz, bz, nz⟩ := z
        simp only [h2] at h
        obtain ⟨-, rfl, -⟩ := (by simpa using h : _ ∧ bz = b1 ∧ _)
        exact ih _ _ _ _ _ _ h2

theorem subSeqGo_var_size {sub : Expr → String → Expr → Nat → Option (Expr × Nat)}
    (Hsub : ∀ b v f m b1 m1, sub b v (.Var f) m = some (b1, m1) → sizeE b1 = sizeE b) :
    ∀ es var f n es1 n1, subSeqGo sub es var (.Var f) n = some (es1, n1) →
      sizeListE es1 = sizeListE es := by
  intro es
  induction es with
  | nil => intro var f n es1 n1 h; simp [subSeqGo] at h; rw [← h.1]
  | cons e es ih =>
    intro var f n es1 n1 h
    simp only [subSeqGo] at h
    cases h1 : sub e var (.Var f) n with
    | none => simp [h1] at h
    | some y =>
      obtain ⟨e1, m1⟩ := y
      simp only [h1] at h
      cases h2 : subSeqGo sub es var (.Var f) m1 with
      | none => simp [h2] at h
      | some z =>
        obtain ⟨esz, nz⟩ := z
        simp only [h2] at h
        obtain ⟨rfl, -⟩ := (by simpa using h : e1 :: esz = es1 ∧ _)
        simp only [sizeListE, Hsub _ _ _ _ _ _ h1, ih _ _ _ _ _ h2]

theorem subF_var_size : ∀ fuel e var f n e1 n1,
    subF fuel e var (.Var f) n = some (e1, n1) → sizeE e1 = sizeE e := by
  intro fuel
  induction fuel with
  | zero => intro e var f n e1 n1 h; simp [subF] at h
  | succ fuel ih =>
    intro e var f n e1 n1 h
    cases e with
    | Var name =>
      simp only [subF] at h
      obtain ⟨rfl, -⟩ := (by simpa using h : (if name = var then Expr.Var f else Expr.Var name) = e1 ∧ _)
      by_cases hn : name = var <;> simp [hn, sizeE]
    | Apply fe a =>
      simp only [subF] at h
      cases h1 : subF fuel fe var (.Var f) n with
      | none => simp [h1] at h
      | some y =>
        obtain ⟨f1, m1⟩ := y
        simp only [h1] at h
        cases h2 : subF fuel a var (.Var f) m1 with
        | none => simp [h2] at h
        | some z =>
          obtain ⟨a1, m2⟩ := z
          simp only [h2] at h
          obtain ⟨rfl, -⟩ := (by simpa using h : Expr.Apply f1 a1 = e1 ∧ _)
          simp [sizeE, ih _ _ _ _ _ _ h1, ih _ _ _ _ _ _ h2]
    | Lambda ps b =>
      simp only [subF] at h
      by_cases hc : ps.contains var
      · simp only [hc, if_true] at h
        cases h1 : subLamLoop (subF fuel) ps var b n with
        | none => simp [h1] at h
        | some y =>
          obtain ⟨ps1, b1, m1⟩ := y
          simp only [h1] at h
          cases h2 : subF fuel b1 var (.Var f) m1 with
          | none => simp [h2] at h
          | some z =>
            obtain ⟨b2, m2⟩ := z
            simp only [h2] at h
            obtain ⟨rfl, -⟩ := (by simpa using h : Expr.Lambda ps1 b2 = e1 ∧ _)
            have hs1 : sizeE b1 = sizeE b := subLamLoop_var_size (fun b v g m b1 m1 => ih b v g m b1 m1) _ _ _ _ _ _ _ h1
            have hs2 : sizeE b2 = sizeE b1 := ih _ _ _ _ _ _ h2
            simp [sizeE, hs2, hs1]
      · simp only [hc, if_false] at h
        cases h1 : subF fuel b var (.Var f) n with
        | none => simp [h1] at h
        | some y =>
          obtain ⟨b1, m1⟩ := y
          simp only [h1] at h
          obtain ⟨rfl, -⟩ := (by simpa using h : Expr.Lambda ps b1 = e1 ∧ _)
          simp [sizeE, ih _ _ _ _ _ _ h1]
    | Define name rhs =>
      simp only [subF] at h
      cases h1 : subF fuel rhs var (.Var f) n with
      | none => simp [h1] at h
      | some y =>
        obtain ⟨r1, m1⟩ := y
        simp only [h1] at h
        obtain ⟨rfl, -⟩ := (by simpa using h : Expr.Define name r1 = e1 ∧ _)
        simp [sizeE, ih _ _ _ _ _ _ h1]
    | Sequence es =>
      simp only [subF] at h
      cases h1 : subSeqGo (subF fuel) es var (.Var f) n with
      | none => simp [h1] at h
      | some y =>
        obtain ⟨es1, m1⟩ := y
        simp only [h1] at h
        obtain ⟨rfl, -⟩ := (by simpa using h : Expr.Sequence es1 = e1 ∧ _)
        simp [sizeE, subSeqGo_var_size (fun b v g m b1 m1 => ih b v g m b1 m1) _ _ _ _ _ _ h1]

theorem subLamLoop_total (b0 : Expr)
    (Htot : ∀ (b : Expr) (p f : String) (m : Nat), sizeE b = sizeE b0 →
      ∃ fuel y, subF fuel b p (.Var f) m = some y) :
    ∀ (ps : List String) (var : String) (b : Expr) (n : Nat), sizeE b = sizeE b0 →
      ∃ fuel ps1 b1 n1, subLamLoop (subF fuel) ps var b n = some (ps1, b1, n1) ∧
        sizeE b1 = sizeE b0 := by
  intro ps
  induction ps with
  | nil => intro var b n hb; exact ⟨0, [], b, n, by simp [subLamLoop], hb⟩
  | cons p ps ih =>
    intro var b n hb
    by_cases hp : p = var
    · obtain ⟨f1, y1, h1⟩ := Htot b p (p ++ "#" ++ toString n) (n + 1) hb
      obtain ⟨b1, n1⟩ := y1
      have hb1 : sizeE b1 = sizeE b0 := (subF_var_size _ _ _ _ _ _ _ h1).trans hb
      obtain ⟨f2, ps1, b2, n2, h2, hb2⟩ := ih var b1 n1 hb1
      refine ⟨max f1 f2, (p ++ "#" ++ toString n) :: ps1, b2, n2, ?_, hb2⟩
      have h1m : subF (max f1 f2) b p (.Var (p ++ "#" ++ toString n)) (n + 1) = some (b1, n1) :=
        subF_mono _ _ _ _ _ _ _ (le_max_left _ _) h1
      have h2m : subLamLoop (subF (max f1 f2)) ps var b1 n1 = some (ps1, b2, n2) :=
        subLamLoop_mono (fun b v r m x => subF_mono _ _ _ _ _ _ _ (le_max_right f1 f2)) _ _ _ _ _ h2
      simp only [subLamLoop, if_pos hp, h1m, h2m]
    · obtain ⟨f2, ps1, b1, n1, h2, hb1⟩ := ih var b n hb
      refine ⟨f2, p :: ps1, b1, n1, ?_, hb1⟩
      simp only [subLamLoop, if_neg hp, h2]

theorem subSeqGo_total (es : List Expr)
    (Htot : ∀ e, e ∈ es → ∀ (var : String) (val : Expr) (n : Nat),
      ∃ fuel y, subF fuel e var val n = some y) :
    ∀ (var : String) (val : Expr) (n : Nat),
      ∃ fuel y, subSeqGo (subF fuel) es var val n = some y := by
  induction es with
  | nil => intro var val n; exact ⟨0, ([], n), by simp [subSeqGo]⟩
  | cons e es ih =>
    intro var val n
    obtain ⟨f1, y1, h1⟩ := Htot e (List.mem_cons_self _ _) var val n
    obtain ⟨e1, n1⟩ := y1
    obtain ⟨f2, y2, h2⟩ := ih (fun e' he' => Htot e' (List.mem_cons_of_mem _ he')) var val n1
    obtain ⟨es1, n2⟩ := y2
    refine ⟨max f1 f2, (e1 :: es1, n2), ?_⟩
    have h1m : subF (max f1 f2) e var val n = some (e1, n1) :=
      subF_mono _ _ _ _ _ _ _ (le_max_left _ _) h1
    have h2m : subSeqGo (subF (max f1 f2)) es var val n1 = some (es1, n2) :=
      subSeqGo_mono (fun b v r m x => subF_mono _ _ _ _ _ _ _ (le_max_right f1 f2)) _ _ _ _ _ h2
    simp only [subSeqGo, h1m, h2m]

theorem subF_total : ∀ (s : Nat) (e : Expr) (var : String) (val : Expr) (n : Nat),
    sizeE e ≤ s → ∃ fuel y, subF fuel e var val n = some y := by
  intro s
  induction s with
  | zero => intro e var val n h; exact absurd h (by have := sizeE_pos e; omega)
  | succ s ih =>
    intro e var val n hs
    cases e with
    | Var name => exact ⟨1, (if name = var then val else .Var name, n), rfl⟩
    | Apply f a =>
      have hf : sizeE f ≤ s := by simp [sizeE] at hs; omega
      have ha : sizeE a ≤ s := by simp [sizeE] at hs; omega
      obtain ⟨f1, y1, h1⟩ := ih f var val n hf
      obtain ⟨fe1, n1⟩ := y1
      obtain ⟨f2, y2, h2⟩ := ih a var val n1 ha
      obtain ⟨ae1, n2⟩ := y2
      refine ⟨max f1 f2 + 1, (.Apply fe1 ae1, n2), ?_⟩
      have h1m := subF_mono _ _ _ _ _ _ _ (le_max_left f1 f2) h1
      have h2m := subF_mono _ _ _ _ _ _ _ (le_max_right f1 f2) h2
      simp only [subF, h1m, h2m]
    | Lambda ps b =>
      have hb : sizeE b ≤ s := by simp [sizeE] at hs; omega
      by_cases hc : ps.contains var
      · obtain ⟨fL, ps1, b1, n1, hL, hb1⟩ :=
          subLamLoop_total b (fun b' p f m hb' => ih b' p (.Var f) m (hb' ▸ hb)) ps var b n rfl
        obtain ⟨fF, y2, hF⟩ := ih b1 var val n1 (hb1 ▸ hb)
        obtain ⟨b2, n2⟩ := y2
        refine ⟨max fL fF + 1, (.Lambda ps1 b2, n2), ?_⟩
        have hLm : subLamLoop (subF (max fL fF)) ps var b n = some (ps1, b1, n1) :=
          subLamLoop_mono (fun b' v r m x => subF_mono _ _ _ _ _ _ _ (le_max_left fL fF)) _ _ _ _ _ hL
        have hFm := subF_mono _ _ _ _ _ _ _ (le_max_right fL fF) hF
        simp only [subF, hc, if_true, hLm, hFm]
      · obtain ⟨f1, y1, h1⟩ := ih b var val n hb
        obtain ⟨b1, n1⟩ := y1
        refine ⟨f1 + 1, (.Lambda ps b1, n1), ?_⟩
        simp only [subF]
        rw [if_neg hc]
        simp only [h1]
    | Define name rhs =>
      have hr : sizeE rhs ≤ s := by simp [sizeE] at hs; omega
      obtain ⟨f1, y1, h1⟩ := ih rhs var val n hr
      obtain ⟨r1, n1⟩ := y1
      exact ⟨f1 + 1, (.Define name r1, n1), by simp only [subF, h1]⟩
    | Sequence es =>
      have hes : ∀ e, e ∈ es → ∀ (var : String) (val : Expr) (m : Nat),
          ∃ fuel y, subF fuel e var val m = some y := by
        intro e he var' val' m
        have h1 : sizeE e ≤ sizeListE es := sizeE_mem es e he
        have h2 : sizeListE es ≤ s := by simp [sizeE] at hs; omega
        exact ih e var' val' m (le_trans h1 h2)
      obtain ⟨f1, y1, h1⟩ := subSeqGo_total es hes var val n
      obtain ⟨es1, n1⟩ := y1
      exact ⟨f1 + 1, (.Sequence es1, n1), by simp only [subF, h1]⟩

/- Case split helper: every expression either is a Define or is not. -/
theorem isDefine_cases (e : Expr) :
    (∃ n r, e = .Define n r) ∨ (∀ n r, e ≠ .Define n r) := by
  cases e <;> simp

/- Unfolding equation for `seqGo` on a non-Define head element. -/
theorem seqGo_cons_of_not_define {ev : Expr → St → Option (Except String Value × St)}
    {e : Expr} (hnd : ∀ n r, e ≠ .Define n r) (es : List Expr) (st : St) (acc : SeqAcc) :
    seqGo ev (e :: es) st acc =
      match ev e st with
      | none => none
      | some (.error m, st1) => some (.error (m, st1))
      | some (.ok v, st1) => seqGo ev es st1 ⟨v, acc.defined, acc.olds⟩ := by
  cases e <;> first | rfl | exact absurd rfl (hnd _ _)

theorem seqGo_mono {ev1 ev2 : Expr → St → Option (Except String Value × St)}
    (H : ∀ e st r, ev1 e st = some r → ev2 e st = some r) :
    ∀ es st acc res, seqGo ev1 es st acc = some res → seqGo ev2 es st acc = some res := by
  intro es
  induction es with
  | nil => intro st acc res h; simpa [seqGo] using h
  | cons e es ih =>
    intro st acc res h
    rcases isDefine_cases e with ⟨name, rhs, rfl⟩ | hnd
    · simp only [seqGo] at h ⊢
      cases h1 : ev1 rhs st with
      | none => simp [h1] at h
      | some y =>
        obtain ⟨r, st1⟩ := y
        simp only [h1] at h
        simp only [H _ _ _ h1]
        cases r with
        | error m => exact h
        | ok v =>
          cases h2 : envGet st1.env name with
          | some old => simp only [h2] at h ⊢; exact ih _ _ _ h
          | none => simp only [h2] at h ⊢; exact ih _ _ _ h
    · rw [seqGo_cons_of_not_define hnd] at h ⊢
      cases h1 : ev1 e st with
      | none => simp [h1] at h
      | some y =>
        obtain ⟨r, st1⟩ := y
        simp only [h1] at h
        simp only [H _ _ _ h1]
        cases r with
        | error m => exact h
        | ok v => exact ih _ _ _ h

/- The final state carried by a sequence-walk result. -/
def seqSt : Except (String × St) (St × SeqAcc) → St
  | .error (_, st) => st
  | .ok (st, _) => st

theorem seqGo_step_mono {ev : Expr → St → Option (Except String Value × St)}
    (Hev : ∀ e st r st1, ev e st = some (r, st1) → st.step ≤ st1.step) :
    ∀ es st acc res, seqGo ev es st acc = some res → st.step ≤ (seqSt res).step := by
  intro es
  induction es with
  | nil =>
    intro st acc res h
    simp only [seqGo, Option.some.injEq, Prod.mk.injEq] at h
    subst h; exact le_refl _
  | cons e es ih =>
    intro st acc res h
    rcases isDefine_cases e with ⟨name, rhs, rfl⟩ | hnd
    · simp only [seqGo] at h
      cases h1 : ev rhs st with
      | none => simp [h1] at h
      | some y =>
        obtain ⟨r, st1⟩ := y
        simp only [h1] at h
        have hst1 : st.step ≤ st1.step := Hev _ _ _ _ h1
        cases r with
        | error m =>
          simp only [Option.some.injEq, Prod.mk.injEq] at h
          subst h; exact hst1
        | ok v =>
          cases h2 : envGet st1.env name with
          | some old =>
            simp only [h2] at h
            exact le_trans hst1
              (ih ⟨envInsert st1.env name v, st1.step, st1.fresh⟩ _ _ h)
          | none =>
            simp only [h2] at h
            exact le_trans hst1
              (ih ⟨envInsert st1.env name v, st1.step, st1.fresh⟩ _ _ h)
    · rw [seqGo_cons_of_not_define hnd] at h
      cases h1 : ev e st with
      | none => simp [h1] at h
      | some y =>
        obtain ⟨r, st1⟩ := y
        simp only [h1] at h
        have hst1 : st.step ≤ st1.step := Hev _ _ _ _ h1
        cases r with
        | error m =>
          simp only [Option.some.injEq, Prod.mk.injEq] at h
          subst h; exact hst1
        | ok v => exact le_trans hst1 (ih _ _ _ h)

theorem evalF_step_mono : ∀ fuel e st r st1,
    evalF fuel e st = some (r, st1) → st.step ≤ st1.step := by
  intro fuel
  induction fuel with
  | zero => intro e st r st1 h; simp [evalF] at h
  | succ fuel ih =>
    intro e st r st1 h
    cases e with
    | Var name =>
      simp only [evalF] at h
      cases h1 : envGet st.env name with
      | some v => simp only [h1, Option.some.injEq, Prod.mk.injEq] at h; rw [← h.2]
      | none => simp only [h1, Option.some.injEq, Prod.mk.injEq] at h; rw [← h.2]
    | Lambda ps b =>
      simp only [evalF, Option.some.injEq, Prod.mk.injEq] at h
      rw [← h.2]
    | Apply f a =>
      simp only [evalF] at h
      by_cases hstep : st.step + 1 > 10000
      · simp only [if_pos hstep, Option.some.injEq, Prod.mk.injEq] at h
        rw [← h.2]; exact Nat.le_succ _
      · simp only [if_neg hstep] at h
        cases h1 : evalF fuel f ⟨st.env, st.step + 1, st.fresh⟩ with
        | none => simp [h1] at h
        | some y =>
          obtain ⟨r2, st2⟩ := y
          simp only [h1] at h
          have hst2 : st.step + 1 ≤ st2.step := ih _ _ _ _ h1
          cases r2 with
          | error m =>
            simp only [Option.some.injEq, Prod.mk.injEq] at h
            rw [← h.2]; omega
          | ok fv =>
            cases h2 : evalF fuel a st2 with
            | none => simp [h2] at h
            | some z =>
              obtain ⟨r3, st3⟩ := z
              simp only [h2] at h
              have hst3 : st2.step ≤ st3.step := ih _ _ _ _ h2
              cases r3 with
              | error m =>
                simp only [Option.some.injEq, Prod.mk.injEq] at h
                rw [← h.2]; omega
              | ok av =>
                cases fv with
                | Unit =>
                  simp only [Option.some.injEq, Prod.mk.injEq] at h
                  rw [← h.2]; omega
                | Closure ps b cenv =>
                  cases ps with
                  | nil =>
                    simp only [Option.some.injEq, Prod.mk.injEq] at h
                    rw [← h.2]; omega
                  | cons p ps1 =>
                    simp only [] at h
                    cases h3 : subF fuel b p (toExpr av) st3.fresh with
                    | none => simp [h3] at h
                    | some w =>
                      obtain ⟨b1, fr1⟩ := w
                      simp only [h3] at h
                      cases ps1 with
                      | nil =>
                        cases h4 : evalF fuel b1 ⟨cenv, st3.step, fr1⟩ with
                        | none => simp [h4] at h
                        | some q =>
                          obtain ⟨r4, st4⟩ := q
                          simp only [h4, Option.some.injEq, Prod.mk.injEq] at h
                          have hst4 : st3.step ≤ st4.step :=
                            ih b1 ⟨cenv, st3.step, fr1⟩ r4 st4 h4
                          rw [← h.2]; simp only []; omega
                      | cons p2 ps2 =>
                        simp only [Option.some.injEq, Prod.mk.injEq] at h
                        rw [← h.2]; simp only []; omega
    | Define name rhs =>
      simp only [evalF] at h
      cases h1 : evalF fuel rhs st with
      | none => simp [h1] at h
      | some y =>
        obtain ⟨r1, st1'⟩ := y
        simp only [h1] at h
        have hst1 : st.step ≤ st1'.step := ih _ _ _ _ h1
        cases r1 with
        | error m =>
          simp only [Option.some.injEq, Prod.mk.injEq] at h
          rw [← h.2]; exact hst1
        | ok v =>
          simp only [Option.some.injEq, Prod.mk.injEq] at h
          rw [← h.2]; exact hst1
    | Sequence es =>
      simp only [evalF] at h
      cases h1 : seqGo (evalF fuel) es st ⟨.Unit, [], []⟩ with
      | none => simp [h1] at h
      | some res =>
        simp only [h1] at h
        have hres : st.step ≤ (seqSt res).step :=
          seqGo_step_mono (fun e' st' r' st1' h' => ih e' st' r' st1' h') _ _ _ _ h1
        cases res with
        | error p =>
          obtain ⟨m, stE⟩ := p
          simp only [Option.some.injEq, Prod.mk.injEq] at h
          rw [← h.2]
          simpa [seqSt] using hres
        | ok p =>
          obtain ⟨stO, acc⟩ := p
          simp only [Option.some.injEq, Prod.mk.injEq] at h
          rw [← h.2]
          simpa [seqSt] using hres

theorem evalF_mono : ∀ fuel1 fuel2 e st r, fuel1 ≤ fuel2 →
    evalF fuel1 e st = some r → evalF fuel2 e st = some r := by
  intro fuel1
  induction fuel1 with
  | zero => intro fuel2 e st r _ h; simp [evalF] at h
  | succ fuel ih =>
    intro fuel2 e st r hle h
    obtain ⟨fuel2, rfl⟩ : ∃ k, fuel2 = k + 1 := by
      cases fuel2 with
      | zero => omega
      | succ k => exact ⟨k, rfl⟩
    have hle2 : fuel ≤ fuel2 := by omega
    have Hm : ∀ e' st' r', evalF fuel e' st' = some r' → evalF fuel2 e' st' = some r' :=
      fun e' st' r' => ih fuel2 e' st' r' hle2
    cases e with
    | Var name => simpa [evalF] using h
    | Lambda ps b => simpa [evalF] using h
    | Apply f a =>
      simp only [evalF] at h ⊢
      by_cases hstep : st.step + 1 > 10000
      · simp only [if_pos hstep] at h ⊢; exact h
      · simp only [if_neg hstep] at h ⊢
        cases h1 : evalF fuel f ⟨st.env, st.step + 1, st.fresh⟩ with
        | none => simp [h1] at h
        | some y =>
          obtain ⟨r2, st2⟩ := y
          simp only [h1] at h
          simp only [Hm _ _ _ h1]
          cases r2 with
          | error m => exact h
          | ok fv =>
            cases h2 : evalF fuel a st2 with
            | none => simp [h2] at h
            | some z =>
              obtain ⟨r3, st3⟩ := z
              simp only [h2] at h
              simp only [Hm _ _ _ h2]
              cases r3 with
              | error m => exact h
              | ok av =>
                cases fv with
                | Unit => exact h
                | Closure ps b cenv =>
                  cases ps with
                  | nil => exact h
                  | cons p ps1 =>
                    simp only [] at h ⊢
                    cases h3 : subF fuel b p (toExpr av) st3.fresh with
                    | none => simp [h3] at h
                    | some w =>
                      obtain ⟨b1, fr1⟩ := w
                      simp only [h3] at h
                      simp only [subF_mono _ _ _ _ _ _ _ hle2 h3]
                      cases ps1 with
                      | nil =>
                        cases h4 : evalF fuel b1 ⟨cenv, st3.step, fr1⟩ with
                        | none => simp [h4] at h
                        | some q =>
                          simp only [h4] at h
                          simp only [Hm _ _ _ h4]
                          exact h
                      | cons p2 ps2 => exact h
    | Define name rhs =>
      simp only [evalF] at h ⊢
      cases h1 : evalF fuel rhs st with
      | none => simp [h1] at h
      | some y =>
        obtain ⟨r1, st1⟩ := y
        simp only [h1] at h
        simp only [Hm _ _ _ h1]
        cases r1 with
        | error m => exact h
        | ok v => exact h
    | Sequence es =>
      simp only [evalF] at h ⊢
      cases h1 : seqGo (evalF fuel) es st ⟨.Unit, [], []⟩ with
      | none => simp [h1] at h
      | some res =>
        simp only [h1] at h
        simp only [seqGo_mono Hm _ _ _ _ h1]
        exact h

/- The expression actually evaluated for a sequence element: the
right-hand side for a Define element, the element itself otherwise. -/
def elemExpr : Expr → Expr
  | .Define _ rhs => rhs
  | e => e

theorem elemExpr_of_not_define {e : Expr} (hnd : ∀ n r, e ≠ .Define n r) :
    elemExpr e = e := by
  cases e <;> first | rfl | exact absurd rfl (hnd _ _)

theorem sizeE_elemExpr_le (e : Expr) : sizeE (elemExpr e) ≤ sizeE e := by
  cases e <;> simp [elemExpr, sizeE]

theorem seqGo_total : ∀ (es : List Expr) (st : St) (acc : SeqAcc),
    (∀ e, e ∈ es → ∀ st' : St, st.step ≤ st'.step →
      ∃ fuel x, evalF fuel (elemExpr e) st' = some x) →
    ∃ fuel res, seqGo (evalF fuel) es st acc = some res := by
  intro es
  induction es with
  | nil => intro st acc _; exact ⟨0, .ok (st, acc), rfl⟩
  | cons e es ih =>
    intro st acc Hall
    rcases isDefine_cases e with ⟨name, rhs, rfl⟩ | hnd
    · obtain ⟨f1, x1, h1⟩ := Hall _ (List.mem_cons_self _ _) st (le_refl _)
      obtain ⟨r1, st1⟩ := x1
      have h1' : evalF f1 rhs st = some (r1, st1) := h1
      have hst1 : st.step ≤ st1.step := evalF_step_mono _ _ _ _ _ h1'
      cases r1 with
      | error m =>
        exact ⟨f1, .error (m, st1), by simp only [seqGo, h1']⟩
      | ok v =>
        have Hall2 : ∀ e', e' ∈ es → ∀ st' : St,
            (⟨envInsert st1.env name v, st1.step, st1.fresh⟩ : St).step ≤ st'.step →
            ∃ fuel x, evalF fuel (elemExpr e') st' = some x := by
          intro e' he' st' hle
          exact Hall e' (List.mem_cons_of_mem _ he') st' (le_trans hst1 hle)
        cases hg : envGet st1.env name with
        | some old =>
          obtain ⟨f2, res, h2⟩ := ih ⟨envInsert st1.env name v, st1.step, st1.fresh⟩
            ⟨acc.last, acc.defined, envInsert acc.olds name old⟩ Hall2
          refine ⟨max f1 f2, res, ?_⟩
          have h1m := evalF_mono _ _ _ _ _ (le_max_left f1 f2) h1'
          have h2m := seqGo_mono (fun e' st' r' =>
            evalF_mono _ _ _ _ _ (le_max_right f1 f2)) _ _ _ _ h2
          simp only [seqGo, h1m, hg, h2m]
        | none =>
          obtain ⟨f2, res, h2⟩ := ih ⟨envInsert st1.env name v, st1.step, st1.fresh⟩
            ⟨acc.last, acc.defined ++ [name], acc.olds⟩ Hall2
          refine ⟨max f1 f2, res, ?_⟩
          have h1m := evalF_mono _ _ _ _ _ (le_max_left f1 f2) h1'
          have h2m := seqGo_mono (fun e' st' r' =>
            evalF_mono _ _ _ _ _ (le_max_right f1 f2)) _ _ _ _ h2
          simp only [seqGo, h1m, hg, h2m]
    · obtain ⟨f1, x1, h1⟩ := Hall _ (List.mem_cons_self _ _) st (le_refl _)
      rw [elemExpr_of_not_define hnd] at h1
      obtain ⟨r1, st1⟩ := x1
      have hst1 : st.step ≤ st1.step := evalF_step_mono _ _ _ _ _ h1
      cases r1 with
      | error m =>
        exact ⟨f1, .error (m, st1), by rw [seqGo_cons_of_not_define hnd]; simp only [h1]⟩
      | ok v =>
        have Hall2 : ∀ e', e' ∈ es → ∀ st' : St, st1.step ≤ st'.step →
            ∃ fuel x, evalF fuel (elemExpr e') st' = some x := by
          intro e' he' st' hle
          exact Hall e' (List.mem_cons_of_mem _ he') st' (le_trans hst1 hle)
        obtain ⟨f2, res, h2⟩ := ih st1 ⟨v, acc.defined, acc.olds⟩ Hall2
        refine ⟨max f1 f2, res, ?_⟩
        have h1m := evalF_mono _ _ _ _ _ (le_max_left f1 f2) h1
        have h2m := seqGo_mono (fun e' st' r' =>
          evalF_mono _ _ _ _ _ (le_max_right f1 f2)) _ _ _ _ h2
        rw [seqGo_cons_of_not_define hnd]
        simp only [h1m, h2m]

theorem evalF_total_aux : ∀ (N s : Nat) (e : Expr) (st : St),
    10001 - st.step ≤ N → sizeE e ≤ s → ∃ fuel r, evalF fuel e st = some r := by
  intro N
  induction N using Nat.strong_induction_on with
  | _ N ihN =>
    intro s
    induction s using Nat.strong_induction_on with
    | _ s ihs =>
      intro e st hN hs
      cases e with
      | Var name =>
        cases hg : envGet st.env name with
        | some v => exact ⟨1, (.ok v, st), by simp [evalF, hg]⟩
        | none => exact ⟨1, (.error ("Undefined variable: " ++ name), st), by simp [evalF, hg]⟩
      | Lambda ps b => exact ⟨1, (.ok (.Closure ps b st.env), st), rfl⟩
      | Apply f a =>
        by_cases hstep : st.step + 1 > 10000
        · exact ⟨1, (.error divMsg, ⟨st.env, st.step + 1, st.fresh⟩),
            by simp [evalF, hstep]⟩
        · have hstep' : st.step + 1 ≤ 10000 := by omega
          have hNpos : 1 ≤ 10001 - st.step := by omega
          set m := 10001 - (st.step + 1) with hm
          have hmN : m < N := by omega
          obtain ⟨f1, x1, h1⟩ := ihN m hmN (sizeE f) f ⟨st.env, st.step + 1, st.fresh⟩
            (by simp; omega) (le_refl _)
          obtain ⟨r2, st2⟩ := x1
          have hst2 : st.step + 1 ≤ st2.step := evalF_step_mono _ _ _ _ _ h1
          cases r2 with
          | error msg =>
            exact ⟨f1 + 1, (.error msg, st2), by
              simp only [evalF, if_neg hstep, h1]⟩
          | ok fv =>
            obtain ⟨f2, x2, h2⟩ := ihN m hmN (sizeE a) a st2 (by omega) (le_refl _)
            obtain ⟨r3, st3⟩ := x2
            have hst3 : st2.step ≤ st3.step := evalF_step_mono _ _ _ _ _ h2
            cases r3 with
            | error msg =>
              refine ⟨max f1 f2 + 1, (.error msg, st3), ?_⟩
              have h1m := evalF_mono _ _ _ _ _ (le_max_left f1 f2) h1
              have h2m := evalF_mono _ _ _ _ _ (le_max_right f1 f2) h2
              simp only [evalF, if_neg hstep, h1m, h2m]
            | ok av =>
              cases fv with
              | Unit =>
                refine ⟨max f1 f2 + 1, (.error "Trying to call a non-function", st3), ?_⟩
                have h1m := evalF_mono _ _ _ _ _ (le_max_left f1 f2) h1
                have h2m := evalF_mono _ _ _ _ _ (le_max_right f1 f2) h2
                simp only [evalF, if_neg hstep, h1m, h2m]
              | Closure ps b cenv =>
                cases ps with
                | nil =>
                  refine ⟨max f1 f2 + 1, (.error "Too many arguments", st3), ?_⟩
                  have h1m := evalF_mono _ _ _ _ _ (le_max_left f1 f2) h1
                  have h2m := evalF_mono _ _ _ _ _ (le_max_right f1 f2) h2
                  simp only [evalF, if_neg hstep, h1m, h2m]
                | cons p ps1 =>
                  obtain ⟨fS, xS, h3⟩ := subF_total (sizeE b) b p (toExpr av) st3.fresh
                    (le_refl _)
                  obtain ⟨b1, fr1⟩ := xS
                  cases ps1 with
                  | cons p2 ps2 =>
                    refine ⟨max (max f1 f2) fS + 1,
                      (.ok (.Closure (p2 :: ps2) b1 cenv), ⟨st3.env, st3.step, fr1⟩), ?_⟩
                    have h1m := evalF_mono _ _ _ _ _
                      (le_trans (le_max_left f1 f2) (le_max_left _ fS)) h1
                    have h2m := evalF_mono _ _ _ _ _
                      (le_trans (le_max_right f1 f2) (le_max_left _ fS)) h2
                    have h3m := subF_mono _ _ _ _ _ _ _ (le_max_right (max f1 f2) fS) h3
                    simp only [evalF, if_neg hstep, h1m, h2m, h3m]
                  | nil =>
                    obtain ⟨f4, x4, h4⟩ := ihN m hmN (sizeE b1) b1 ⟨cenv, st3.step, fr1⟩
                      (by simp; omega) (le_refl _)
                    obtain ⟨r4, st4⟩ := x4
                    refine ⟨max (max f1 f2) (max fS f4) + 1,
                      (r4, ⟨st3.env, st4.step, st4.fresh⟩), ?_⟩
                    have h1m := evalF_mono _ _ _ _ _
                      (le_trans (le_max_left f1 f2) (le_max_left (max f1 f2) (max fS f4))) h1
                    have h2m := evalF_mono _ _ _ _ _
                      (le_trans (le_max_right f1 f2) (le_max_left (max f1 f2) (max fS f4))) h2
                    have h3m := subF_mono _ _ _ _ _ _ _
                      (le_trans (le_max_left fS f4) (le_max_right (max f1 f2) (max fS f4))) h3
                    have h4m := evalF_mono _ _ _ _ _
                      (le_trans (le_max_right fS f4) (le_max_right (max f1 f2) (max fS f4))) h4
                    simp only [evalF, if_neg hstep, h1m, h2m, h3m, h4m]
      | Define name rhs =>
        have hr : sizeE rhs < s := by
          have := sizeE_pos rhs; simp [sizeE] at hs; omega
        obtain ⟨f1, x1, h1⟩ := ihs (sizeE rhs) hr rhs st hN (le_refl _)
        obtain ⟨r1, st1⟩ := x1
        cases r1 with
        | error msg => exact ⟨f1 + 1, (.error msg, st1), by simp only [evalF, h1]⟩
        | ok v =>
          exact ⟨f1 + 1, (.ok v, ⟨envInsert st1.env name v, st1.step, st1.fresh⟩),
            by simp only [evalF, h1]⟩
      | Sequence es =>
        have Hall : ∀ e', e' ∈ es → ∀ st' : St, st.step ≤ st'.step →
            ∃ fuel x, evalF fuel (elemExpr e') st' = some x := by
          intro e' he' st' hle
          have h1 : sizeE (elemExpr e') ≤ sizeE e' := sizeE_elemExpr_le e'
          have h2 : sizeE e' ≤ sizeListE es := sizeE_mem es e' he'
          have h3 : sizeListE es < s := by simp [sizeE] at hs; omega
          exact ihs (sizeE (elemExpr e')) (by omega) (elemExpr e') st' (by omega) (le_refl _)
        obtain ⟨fS, res, hS⟩ := seqGo_total es st ⟨.Unit, [], []⟩ Hall
        cases res with
        | error p =>
          obtain ⟨msg, stE⟩ := p
          exact ⟨fS + 1, (.error msg, stE), by simp only [evalF, hS]⟩
        | ok p =>
          obtain ⟨stO, acc⟩ := p
          exact ⟨fS + 1, (.ok acc.last,
            ⟨insertAll (removeAll stO.env acc.defined) acc.olds, stO.step, stO.fresh⟩),
            by simp only [evalF, hS]⟩

theorem evalF_total (e : Expr) (st : St) : ∃ fuel r, evalF fuel e st = some r :=
  evalF_total_aux (10001 - st.step) (sizeE e) e st (le_refl _) (le_refl _)

theorem envGet_insert_self (env : Env) (n : String) (v : Value) :
    envGet (envInsert env n v) n = some v := by
  induction env with
  | nil => simp [envInsert, envGet]
  | cons p rest ih =>
    obtain ⟨m, w⟩ := p
    by_cases h : m = n
    · simp [envInsert, h, envGet]
    · simp [envInsert, h, envGet, ih]

theorem undef_ne_divMsg (s : String) : "Undefined variable: " ++ s ≠ divMsg := by
  intro h
  have h2 := congrArg (fun t => t.data.head?) h
  simp only [String.data_append] at h2
  simp [divMsg, String.data] at h2

theorem tooMany_ne_divMsg : "Too many arguments" ≠ divMsg := by decide

theorem nonFun_ne_divMsg : "Trying to call a non-function" ≠ divMsg := by decide

theorem seqGo_guard {ev : Expr → St → Option (Except String Value × St)}
    (Hev : ∀ e st r st1, st.step ≤ 10000 → ev e st = some (r, st1) →
      (r = .error divMsg → st1.step = 10001) ∧ (¬ r = .error divMsg → st1.step ≤ 10000)) :
    ∀ es st acc res, st.step ≤ 10000 → seqGo ev es st acc = some res →
      (∀ msg st1, res = .error (msg, st1) →
        (msg = divMsg → st1.step = 10001) ∧ (¬ msg = divMsg → st1.step ≤ 10000)) ∧
      (∀ st1 acc1, res = .ok (st1, acc1) → st1.step ≤ 10000) := by
  intro es
  induction es with
  | nil =>
    intro st acc res hst h
    simp only [seqGo, Option.some.injEq] at h
    subst h
    refine ⟨fun msg st1 hres => by simp at hres, fun st1 acc1 hres => ?_⟩
    obtain ⟨rfl, -⟩ := (by simpa using hres : st = st1 ∧ _)
    exact hst
  | cons e es ih =>
    intro st acc res hst h
    rcases isDefine_cases e with ⟨name, rhs, rfl⟩ | hnd
    · simp only [seqGo] at h
      cases h1 : ev rhs st with
      | none => simp [h1] at h
      | some y =>
        obtain ⟨r, st1⟩ := y
        simp only [h1] at h
        have hg := Hev _ _ _ _ hst h1
        cases r with
        | error m =>
          simp only [Option.some.injEq] at h
          subst h
          refine ⟨fun msg st2 hres => ?_, fun st2 acc2 hres => by simp at hres⟩
          obtain ⟨rfl, rfl⟩ := (by simpa using hres : m = msg ∧ st1 = st2)
          exact ⟨fun hd => hg.1 (by rw [hd]), fun hd => hg.2 (by simpa using hd)⟩
        | ok v =>
          have hst1 : st1.step ≤ 10000 := hg.2 (by simp)
          cases h2 : envGet st1.env name with
          | some old =>
            simp only [h2] at h
            exact ih ⟨envInsert st1.env name v, st1.step, st1.fresh⟩ _ _ hst1 h
          | none =>
            simp only [h2] at h
            exact ih ⟨envInsert st1.env name v, st1.step, st1.fresh⟩ _ _ hst1 h
    · rw [seqGo_cons_of_not_define hnd] at h
      cases h1 : ev e st with
      | none => simp [h1] at h
      | some y =>
        obtain ⟨r, st1⟩ := y
        simp only [h1] at h
        have hg := Hev _ _ _ _ hst h1
        cases r with
        | error m =>
          simp only [Option.some.injEq] at h
          subst h
          refine ⟨fun msg st2 hres => ?_, fun st2 acc2 hres => by simp at hres⟩
          obtain ⟨rfl, rfl⟩ := (by simpa using hres : m = msg ∧ st1 = st2)
          exact ⟨fun hd => hg.1 (by rw [hd]), fun hd => hg.2 (by simpa using hd)⟩
        | ok v =>
          have hst1 : st1.step ≤ 10000 := hg.2 (by simp)
          exact ih st1 _ _ hst1 h

theorem evalF_guard : ∀ fuel e st r st1, st.step ≤ 10000 →
    evalF fuel e st = some (r, st1) →
    (r = .error divMsg → st1.step = 10001) ∧ (¬ r = .error divMsg → st1.step ≤ 10000) := by
  intro fuel
  induction fuel with
  | zero => intro e st r st1 _ h; simp [evalF] at h
  | succ fuel ih =>
    intro e st r st1 hst h
    cases e with
    | Var name =>
      simp only [evalF] at h
      cases h1 : envGet st.env name with
      | some v =>
        simp only [h1, Option.some.injEq, Prod.mk.injEq] at h
        obtain ⟨rfl, rfl⟩ := h
        exact ⟨fun hd => by simp at hd, fun _ => hst⟩
      | none =>
        simp only [h1, Option.some.injEq, Prod.mk.injEq] at h
        obtain ⟨rfl, rfl⟩ := h
        refine ⟨fun hd => ?_, fun _ => hst⟩
        exact absurd (by simpa using hd) (undef_ne_divMsg name)
    | Lambda ps b =>
      simp only [evalF, Option.some.injEq, Prod.mk.injEq] at h
      obtain ⟨rfl, rfl⟩ := h
      exact ⟨fun hd => by simp at hd, fun _ => hst⟩
    | Apply f a =>
      simp only [evalF] at h
      by_cases hstep : st.step + 1 > 10000
      · simp only [if_pos hstep, Option.some.injEq, Prod.mk.injEq] at h
        obtain ⟨rfl, rfl⟩ := h
        exact ⟨fun _ => by simp; omega, fun hd => absurd rfl hd⟩
      · simp only [if_neg hstep] at h
        have hst1 : st.step + 1 ≤ 10000 := by omega
        cases h1 : evalF fuel f ⟨st.env, st.step + 1, st.fresh⟩ with
        | none => simp [h1] at h
        | some y =>
          obtain ⟨r2, st2⟩ := y
          simp only [h1] at h
          have hg1 := ih f ⟨st.env, st.step + 1, st.fresh⟩ r2 st2 hst1 h1
          cases r2 with
          | error m =>
            simp only [Option.some.injEq, Prod.mk.injEq] at h
            obtain ⟨rfl, rfl⟩ := h
            exact ⟨fun hd => hg1.1 hd, fun hd => hg1.2 hd⟩
          | ok fv =>
            have hst2 : st2.step ≤ 10000 := hg1.2 (by simp)
            cases h2 : evalF fuel a st2 with
            | none => simp [h2] at h
            | some z =>
              obtain ⟨r3, st3⟩ := z
              simp only [h2] at h
              have hg2 := ih a st2 r3 st3 hst2 h2
              cases r3 with
              | error m =>
                simp only [Option.some.injEq, Prod.mk.injEq] at h
                obtain ⟨rfl, rfl⟩ := h
                exact ⟨fun hd => hg2.1 hd, fun hd => hg2.2 hd⟩
              | ok av =>
                have hst3 : st3.step ≤ 10000 := hg2.2 (by simp)
                cases fv with
                | Unit =>
                  simp only [Option.some.injEq, Prod.mk.injEq] at h
                  obtain ⟨rfl, rfl⟩ := h
                  refine ⟨fun hd => ?_, fun _ => hst3⟩
                  exact absurd (by simpa using hd) nonFun_ne_divMsg
                | Closure ps b cenv =>
                  cases ps with
                  | nil =>
                    simp only [Option.some.injEq, Prod.mk.injEq] at h
                    obtain ⟨rfl, rfl⟩ := h
                    refine ⟨fun hd => ?_, fun _ => hst3⟩
                    exact absurd (by simpa using hd) tooMany_ne_divMsg
                  | cons p ps1 =>
                    simp only [] at h
                    cases h3 : subF fuel b p (toExpr av) st3.fresh with
                    | none => simp [h3] at h
                    | some w =>
                      obtain ⟨b1, fr1⟩ := w
                      simp only [h3] at h
                      cases ps1 with
                      | nil =>
                        cases h4 : evalF fuel b1 ⟨cenv, st3.step, fr1⟩ with
                        | none => simp [h4] at h
                        | some q =>
                          obtain ⟨r4, st4⟩ := q
                          simp only [h4, Option.some.injEq, Prod.mk.injEq] at h
                          obtain ⟨rfl, rfl⟩ := h
                          have hg4 := ih b1 ⟨cenv, st3.step, fr1⟩ r4 st4 hst3 h4
                          exact ⟨fun hd => hg4.1 hd, fun hd => hg4.2 hd⟩
                      | cons p2 ps2 =>
                        simp only [Option.some.injEq, Prod.mk.injEq] at h
                        obtain ⟨rfl, rfl⟩ := h
                        exact ⟨fun hd => by simp at hd, fun _ => hst3⟩
    | Define name rhs =>
      simp only [evalF] at h
      cases h1 : evalF fuel rhs st with
      | none => simp [h1] at h
      | some y =>
        obtain ⟨r1, st1'⟩ := y
        simp only [h1] at h
        have hg1 := ih rhs st r1 st1' hst h1
        cases r1 with
        | error m =>
          simp only [Option.some.injEq, Prod.mk.injEq] at h
          obtain ⟨rfl, rfl⟩ := h
          exact ⟨fun hd => hg1.1 hd, fun hd => hg1.2 hd⟩
        | ok v =>
          simp only [Option.some.injEq, Prod.mk.injEq] at h
          obtain ⟨rfl, rfl⟩ := h
          exact ⟨fun hd => by simp at hd, fun _ => hg1.2 (by simp)⟩
    | Sequence es =>
      simp only [evalF] at h
      cases h1 : seqGo (evalF fuel) es st ⟨.Unit, [], []⟩ with
      | none => simp [h1] at h
      | some res =>
        simp only [h1] at h
        have hseq := seqGo_guard (fun e' st' r' st1' hst' h' => ih e' st' r' st1' hst' h')
          es st ⟨.Unit, [], []⟩ res hst h1
        cases res with
        | error pe =>
          obtain ⟨m, stE⟩ := pe
          simp only [Option.some.injEq, Prod.mk.injEq] at h
          obtain ⟨rfl, rfl⟩ := h
          have := hseq.1 m stE rfl
          exact ⟨fun hd => this.1 (by simpa using hd), fun hd => this.2 (by simpa using hd)⟩
        | ok po =>
          obtain ⟨stO, acc⟩ := po
          simp only [Option.some.injEq, Prod.mk.injEq] at h
          obtain ⟨rfl, rfl⟩ := h
          exact ⟨fun hd => by simp at hd, fun _ => hseq.2 stO acc rfl⟩

theorem omega_spin : ∀ (j k : Nat) (env : Env) (fr : Nat), k ≤ 10000 → 10001 ≤ k + j →
    evalF (j + 3) omegaExpr ⟨env, k, fr⟩ = some (.error divMsg, ⟨env, 10001, fr⟩) := by
  intro j
  induction j with
  | zero => intro k env fr h1 h2; omega
  | succ j ih =>
    intro k env fr h1 h2
    have key : evalF (j + 1 + 3) omegaExpr ⟨env, k, fr⟩ =
        if k + 1 > 10000 then some (.error divMsg, ⟨env, k + 1, fr⟩)
        else (match evalF (j + 3) omegaExpr ⟨env, k + 1, fr⟩ with
              | none => none
              | some (r, st4) => some (r, (⟨env, st4.step, st4.fresh⟩ : St))) := rfl
    rw [key]
    by_cases hk : k + 1 > 10000
    · have hke : k = 10000 := by omega
      subst hke
      simp [if_pos hk]
    · have hk1 : k + 1 ≤ 10000 := by omega
      rw [if_neg hk, ih (k + 1) env fr hk1 (by omega)]

theorem omega_diverges :
    evalF 10004 omegaExpr ⟨[], 0, 0⟩ = some (.error divMsg, ⟨[], 10001, 0⟩) :=
  omega_spin 10001 0 [] 0 (by omega) (by omega)

theorem seqGo_append {ev : Expr → St → Option (Except String Value × St)} :
    ∀ (xs ys : List Expr) (st : St) (acc : SeqAcc),
      seqGo ev (xs ++ ys) st acc =
        match seqGo ev xs st acc with
        | none => none
        | some (.error p) => some (.error p)
        | some (.ok (st1, acc1)) => seqGo ev ys st1 acc1 := by
  intro xs
  induction xs with
  | nil => intro ys st acc; rfl
  | cons x xs ih =>
    intro ys st acc
    rcases isDefine_cases x with ⟨name, rhs, rfl⟩ | hnd
    · cases h1 : ev rhs st with
      | none => simp only [List.cons_append, seqGo, h1]
      | some y =>
        obtain ⟨r, st1⟩ := y
        cases r with
        | error m => simp only [List.cons_append, seqGo, h1]
        | ok v =>
          cases h2 : envGet st1.env name with
          | some old =>
            simp only [List.cons_append, seqGo, h1, h2]
            exact ih ys ⟨envInsert st1.env name v, st1.step, st1.fresh⟩
              ⟨acc.last, acc.defined, envInsert acc.olds name old⟩
          | none =>
            simp only [List.cons_append, seqGo, h1, h2]
            exact ih ys ⟨envInsert st1.env name v, st1.step, st1.fresh⟩
              ⟨acc.last, acc.defined ++ [name], acc.olds⟩
    · rw [List.cons_append, seqGo_cons_of_not_define hnd, seqGo_cons_of_not_define hnd]
      cases h1 : ev x st with
      | none => simp only [h1]
      | some y =>
        obtain ⟨r, st1⟩ := y
        cases r with
        | error m => simp only [h1]
        | ok v =>
          simp only [h1]
          exact ih ys st1 ⟨v, acc.defined, acc.olds⟩

theorem seqGo_all_define_last {ev : Expr → St → Option (Except String Value × St)} :
    ∀ (es : List Expr) (st : St) (acc : SeqAcc) (st1 : St) (acc1 : SeqAcc),
      (∀ e ∈ es, ∃ n r, e = .Define n r) →
      seqGo ev es st acc = some (.ok (st1, acc1)) → acc1.last = acc.last := by
  intro es
  induction es with
  | nil =>
    intro st acc st1 acc1 _ h
    simp only [seqGo, Option.some.injEq] at h
    obtain ⟨-, rfl⟩ := (by simpa using h : _ ∧ acc = acc1)
    rfl
  | cons e es ih =>
    intro st acc st1 acc1 hall h
    obtain ⟨name, rhs, rfl⟩ := hall e (List.mem_cons_self _ _)
    simp only [seqGo] at h
    cases h1 : ev rhs st with
    | none => simp [h1] at h
    | some y =>
      obtain ⟨r, stx⟩ := y
      simp only [h1] at h
      cases r with
      | error m => simp at h
      | ok v =>
        cases h2 : envGet stx.env name with
        | some old =>
          simp only [h2] at h
          exact ih ⟨envInsert stx.env name v, stx.step, stx.fresh⟩
            ⟨acc.last, acc.defined, envInsert acc.olds name old⟩ st1 acc1
            (fun e' he' => hall e' (List.mem_cons_of_mem _ he')) h
        | none =>
          simp only [h2] at h
          exact ih ⟨envInsert stx.env name v, stx.step, stx.fresh⟩
            ⟨acc.last, acc.defined ++ [name], acc.olds⟩ st1 acc1
            (fun e' he' => hall e' (List.mem_cons_of_mem _ he')) h

/- The core of the `Sequence` result-value analysis: if the whole
sequence `es1 ++ e :: es2` evaluates to `ok v`, `e` is not a Define,
and everything after `e` is a Define, then `v` is exactly the value
`e` itself evaluated to at the point it was reached. -/
theorem seqGo_last_non_define {ev : Expr → St → Option (Except String Value × St)} :
    ∀ (es1 : List Expr) (e : Expr) (es2 : List Expr) (st : St) (acc : SeqAcc)
      (st1 : St) (acc1 : SeqAcc),
      (∀ n r, e ≠ .Define n r) →
      (∀ e' ∈ es2, ∃ n r, e' = .Define n r) →
      seqGo ev (es1 ++ e :: es2) st acc = some (.ok (st1, acc1)) →
      ∃ stA stB, ev e stA = some (.ok acc1.last, stB) := by
  intro es1 e es2 st acc st1 acc1 hnd hall h
  rw [seqGo_append] at h
  cases h1 : seqGo ev es1 st acc with
  | none => simp [h1] at h
  | some r1 =>
    rw [h1] at h
    cases r1 with
    | error p => simp at h
    | ok q =>
      obtain ⟨stA, accA⟩ := q
      simp only [] at h
      rw [seqGo_cons_of_not_define hnd] at h
      cases h2 : ev e stA with
      | none => simp [h2] at h
      | some y =>
        obtain ⟨r, stB⟩ := y
        simp only [h2] at h
        cases r with
        | error m => simp at h
        | ok v =>
          have hlast : acc1.last = v :=
            seqGo_all_define_last es2 stB ⟨v, accA.defined, accA.olds⟩ st1 acc1 hall h
          exact ⟨stA, stB, by rw [hlast]; exact h2⟩

theorem docGo_append {ev : Expr → St → Option (Except String Value × St)} :
    ∀ (xs ys : List Expr) (st : St) (last : Value),
      docGo ev (xs ++ ys) st last =
        match docGo ev xs st last with
        | none => none
        | some (.error m, st1) => some (.error m, st1)
        | some (.ok v, st1) => docGo ev ys st1 v := by
  intro xs
  induction xs with
  | nil => intro ys st last; rfl
  | cons x xs ih =>
    intro ys st last
    show docGo ev (x :: (xs ++ ys)) st last = _
    simp only [docGo]
    cases h1 : ev x st with
    | none => rfl
    | some y =>
      obtain ⟨r, st1⟩ := y
      cases r with
      | error m => rfl
      | ok v => exact ih ys st1 v

/- Concrete environments and values used by the claim theorems. -/

/- An environment binding `x` to a closure `L c . c` with empty capture. -/
def envC2 : Env := [("x", Value.Closure ["c"] (.Var "c") [])]

/- The value of the first `x = L a . a` inside `envC2` (it captures `envC2`). -/
def aClo : Value := .Closure ["a"] (.Var "a") envC2

/- The value of the second `x = L b . b` (it captures the once-updated env). -/
def bClo : Value := .Closure ["b"] (.Var "b") [("x", aClo)]

/- An environment binding `y` to the closure `L a . a` with empty capture. -/
def envC4 : Env := [("y", Value.Closure ["a"] (.Var "a") [])]

/- An environment binding `a` and `b` to closures with empty captures. -/
def envC5 : Env :=
  [("a", Value.Closure ["w"] (.Var "w") []), ("b", Value.Closure ["u"] (.Var "u") [])]

/-- C1: the specification claims `substitute` renames every lambda
parameter that collides with a free variable of the replacement, so
that no free variable of the replacement is captured.  The code only
renames parameters equal to the substituted variable itself: on
`substitute(L z . (x z), "x", z)` the parameter `z` is not renamed and
the replacement's free `z` is captured by the binder. -/
theorem substitute_captures_replacement_var :
    subF 10 (.Lambda ["z"] (.Apply (.Var "x") (.Var "z"))) "x" (.Var "z") 0
      = some (.Lambda ["z"] (.Apply (.Var "z") (.Var "z")), 0) := rfl

/-- C2: the specification claims a `Sequence` restores every name
touched by its Defines to the pre-sequence value.  On the spec's own
example `x = e1; x = e2; x` under an environment already binding `x`,
the second Define overwrites the recorded old value (a `HashMap`
insert), so the sequence restores `x` to the FIRST define's value, not
the pre-sequence one: here `x` ends bound to `aClo`, not the original
`Closure ["c"] (Var "c") []`. -/
theorem sequence_restore_bug :
    evalF 2 (.Sequence [.Define "x" (.Lambda ["a"] (.Var "a")),
        .Define "x" (.Lambda ["b"] (.Var "b")), .Var "x"]) ⟨envC2, 0, 0⟩
      = some (.ok bClo, ⟨[("x", aClo)], 0, 0⟩)
    ∧ envGet envC2 "x" = some (.Closure ["c"] (.Var "c") [])
    ∧ aClo ≠ .Closure ["c"] (.Var "c") [] := by
  refine ⟨rfl, rfl, fun h => ?_⟩
  injection h with h1 h2 h3
  injection h1 with h4 h5
  exact absurd h4 (by decide)

/-- C3: `eval` is total (for every expression and state some fuel makes
the fueled evaluator return), the self-application combinator
`(L x . (x x)) (L x . (x x))` terminates with the DivergenceDetected
error once the Apply counter exceeds the 10000 ceiling, and the
DivergenceDetected error is only produced when the counter genuinely
reached 10001, so no evaluation within the ceiling is aborted. -/
theorem eval_total_and_divergence_guarded :
    (∀ (e : Expr) (st : St), ∃ fuel r, evalF fuel e st = some r)
  ∧ (evalF 10004 omegaExpr ⟨[], 0, 0⟩ = some (.error divMsg, ⟨[], 10001, 0⟩))
  ∧ (∀ (fuel : Nat) (e : Expr) (st st1 : St), st.step ≤ 10000 →
      evalF fuel e st = some (.error divMsg, st1) → st1.step = 10001) :=
  ⟨evalF_total, omega_diverges,
   fun fuel e st st1 hst h => (evalF_guard fuel e st _ st1 hst h).1 rfl⟩

theorem eval_total_and_divergence_guarded_witness :
    ((⟨[], 9999, 0⟩ : St).step ≤ 10000) ∧ ((⟨[], 10001, 0⟩ : St).step = 10001) :=
  ⟨by decide,
   eval_total_and_divergence_guarded.2.2 5 omegaExpr ⟨[], 9999, 0⟩ ⟨[], 10001, 0⟩
     (by decide) (by rfl)⟩

/-- C4: the specification claims `(L x . x) y` under an environment
binding `y` to a closure returns exactly that closure (structural
equality of params, body and captured environment).  Because `to_expr`
drops the closure's captured environment and the substituted body is
re-evaluated under the application-site environment, the result is a
closure with the same params and body but with the application-site
environment as capture, which differs from the bound closure. -/
theorem identity_application_env_bug :
    evalF 5 (.Apply (.Lambda ["x"] (.Var "x")) (.Var "y")) ⟨envC4, 0, 0⟩
      = some (.ok (.Closure ["a"] (.Var "a") envC4), ⟨envC4, 1, 0⟩)
    ∧ envGet envC4 "y" = some (.Closure ["a"] (.Var "a") [])
    ∧ Value.Closure ["a"] (.Var "a") envC4 ≠ .Closure ["a"] (.Var "a") [] := by
  refine ⟨rfl, rfl, fun h => ?_⟩
  injection h with h1 h2 h3
  simp [envC4] at h3

/-- C5: `(L x y . x) a` does evaluate to a partially-applied closure
with remaining parameter list `["y"]` and the substituted body, but
further applying it to `b` does not return the value bound to `a`: the
result closure's captured environment is the application-site
environment (the closure's own captured environment was dropped by
`to_expr`), so it differs structurally from the value bound to `a`. -/
theorem curried_application_env_bug :
    evalF 5 (.Apply (.Lambda ["x", "y"] (.Var "x")) (.Var "a")) ⟨envC5, 0, 0⟩
      = some (.ok (.Closure ["y"] (.Lambda ["w"] (.Var "w")) envC5), ⟨envC5, 1, 0⟩)
    ∧ evalF 6 (.Apply (.Apply (.Lambda ["x", "y"] (.Var "x")) (.Var "a")) (.Var "b"))
        ⟨envC5, 0, 0⟩
      = some (.ok (.Closure ["w"] (.Var "w") envC5), ⟨envC5, 2, 0⟩)
    ∧ envGet envC5 "a" = some (.Closure ["w"] (.Var "w") [])
    ∧ Value.Closure ["w"] (.Var "w") envC5 ≠ .Closure ["w"] (.Var "w") [] := by
  refine ⟨rfl, rfl, rfl, fun h => ?_⟩
  injection h with h1 h2 h3
  simp [envC5] at h3

/-- C6: the result of evaluating a `Sequence` is the value its last
non-Define element evaluated to; if the sequence is empty or every
element is a Define, the result is `Unit`. -/
theorem sequence_result_is_last_non_define :
    (∀ (fuel : Nat) (es : List Expr) (st : St) (v : Value) (st1 : St),
       (∀ e ∈ es, ∃ n r, e = .Define n r) →
       evalF fuel (.Sequence es) st = some (.ok v, st1) → v = .Unit)
  ∧ (∀ (fuel : Nat) (es1 : List Expr) (e : Expr) (es2 : List Expr) (st : St)
       (v : Value) (st1 : St),
       (∀ n r, e ≠ .Define n r) →
       (∀ e' ∈ es2, ∃ n r, e' = .Define n r) →
       evalF (fuel + 1) (.Sequence (es1 ++ e :: es2)) st = some (.ok v, st1) →
       ∃ stA stB, evalF fuel e stA = some (.ok v, stB)) := by
  constructor
  · intro fuel es st v st1 hall h
    cases fuel with
    | zero => simp [evalF] at h
    | succ g =>
      simp only [evalF] at h
      cases hS : seqGo (evalF g) es st ⟨.Unit, [], []⟩ with
      | none => simp [hS] at h
      | some res =>
        simp only [hS] at h
        cases res with
        | error p => obtain ⟨m, stE⟩ := p; simp at h
        | ok q =>
          obtain ⟨stO, acc⟩ := q
          simp only [Option.some.injEq, Prod.mk.injEq, Except.ok.injEq] at h
          obtain ⟨h1, -⟩ := h
          have hL := seqGo_all_define_last es st ⟨.Unit, [], []⟩ stO acc hall hS
          rw [← h1]
          exact hL
  · intro fuel es1 e es2 st v st1 hnd hall h
    simp only [evalF] at h
    cases hS : seqGo (evalF fuel) (es1 ++ e :: es2) st ⟨.Unit, [], []⟩ with
    | none => simp [hS] at h
    | some res =>
      simp only [hS] at h
      cases res with
      | error p => obtain ⟨m, stE⟩ := p; simp at h
      | ok q =>
        obtain ⟨stO, acc⟩ := q
        simp only [Option.some.injEq, Prod.mk.injEq, Except.ok.injEq] at h
        obtain ⟨h1, -⟩ := h
        obtain ⟨stA, stB, hAB⟩ :=
          seqGo_last_non_define es1 e es2 st ⟨.Unit, [], []⟩ stO acc hnd hall hS
        exact ⟨stA, stB, by rw [h1] at hAB; exact hAB⟩

theorem sequence_result_is_last_non_define_witness :
    ∃ stA stB, evalF 1 (.Var "x") stA = some (.ok .Unit, stB) :=
  sequence_result_is_last_non_define.2 1 [] (.Var "x") [] ⟨[("x", .Unit)], 0, 0⟩
    .Unit ⟨[("x", .Unit)], 0, 0⟩ (fun n r h => by cases h)
    (fun e' he' => absurd he' (List.not_mem_nil e')) (by rfl)

/-- C7 counterexample: a `Sequence` consisting of a single Define does
not return the Define's value: the code returns `Unit` (the value of
the last non-Define element, of which there are none), while the
Define's right-hand side evaluates to a closure. -/
theorem sequence_trailing_define_counterexample :
    evalF 2 (.Sequence [.Define "x" (.Lambda ["a"] (.Var "a"))]) ⟨[], 0, 0⟩
      = some (.ok .Unit, ⟨[], 0, 0⟩)
    ∧ evalF 1 (.Lambda ["a"] (.Var "a")) ⟨[], 0, 0⟩
      = some (.ok (.Closure ["a"] (.Var "a") []), ⟨[], 0, 0⟩)
    ∧ Value.Unit ≠ .Closure ["a"] (.Var "a") [] :=
  ⟨rfl, rfl, by simp⟩

/-- C7 amended: a `Sequence` ending in a Define does not yield that
Define's value; it yields the value of the last non-Define element
before it (or `Unit` if every element is a Define: that case is part
of C6's theorem). -/
theorem sequence_trailing_define_result :
    ∀ (fuel : Nat) (es1 : List Expr) (e : Expr) (es2 : List Expr) (x : String)
      (rhs : Expr) (st : St) (v : Value) (st1 : St),
      (∀ n r, e ≠ .Define n r) →
      (∀ e' ∈ es2, ∃ n r, e' = .Define n r) →
      evalF (fuel + 1) (.Sequence (es1 ++ e :: (es2 ++ [.Define x rhs]))) st
        = some (.ok v, st1) →
      ∃ stA stB, evalF fuel e stA = some (.ok v, stB) := by
  intro fuel es1 e es2 x rhs st v st1 hnd hall h
  simp only [evalF] at h
  cases hS : seqGo (evalF fuel) (es1 ++ e :: (es2 ++ [.Define x rhs])) st
      ⟨.Unit, [], []⟩ with
  | none => simp [hS] at h
  | some res =>
    simp only [hS] at h
    cases res with
    | error p => obtain ⟨m, stE⟩ := p; simp at h
    | ok q =>
      obtain ⟨stO, acc⟩ := q
      simp only [Option.some.injEq, Prod.mk.injEq, Except.ok.injEq] at h
      obtain ⟨h1, -⟩ := h
      have hall2 : ∀ e' ∈ es2 ++ [Expr.Define x rhs], ∃ n r, e' = .Define n r := by
        intro e' he'
        rcases List.mem_append.mp he' with hm | hm
        · exact hall e' hm
        · obtain rfl := List.mem_singleton.mp hm
          exact ⟨x, rhs, rfl⟩
      obtain ⟨stA, stB, hAB⟩ :=
        seqGo_last_non_define es1 e (es2 ++ [.Define x rhs]) st ⟨.Unit, [], []⟩
          stO acc hnd hall2 hS
      exact ⟨stA, stB, by rw [h1] at hAB; exact hAB⟩

theorem sequence_trailing_define_result_witness :
    ∃ stA stB, evalF 1 (.Var "x") stA = some (.ok .Unit, stB) ∧ True :=
  have h := sequence_trailing_define_result 1 [] (.Var "x") [] "y"
    (.Lambda ["a"] (.Var "a")) ⟨[("x", .Unit)], 0, 0⟩ .Unit ⟨[("x", .Unit)], 0, 0⟩
    (fun n r hc => by cases hc) (fun e' he' => absurd he' (List.not_mem_nil e'))
    (by rfl)
  ⟨h.choose, h.choose_spec.choose, h.choose_spec.choose_spec, trivial⟩

/-- C8: `Var(name)` fails with the UnboundVariable error exactly when
`name` is absent from the environment and otherwise returns the bound
value (and the state) unchanged; `Apply` fails with the NotAFunction
error when the function part evaluates to a non-closure value and the
argument evaluates successfully under the ceiling; applying a closure
whose remaining parameter list is empty fails with TooManyArguments. -/
theorem eval_error_conditions :
    (∀ (fuel : Nat) (name : String) (st : St),
       (envGet st.env name = none →
         evalF (fuel + 1) (.Var name) st
           = some (.error ("Undefined variable: " ++ name), st))
       ∧ (∀ v, envGet st.env name = some v →
         evalF (fuel + 1) (.Var name) st = some (.ok v, st)))
  ∧ (∀ (fuel : Nat) (f a : Expr) (st : St) (v w : Value) (st2 st3 : St),
       st.step + 1 ≤ 10000 →
       evalF fuel f ⟨st.env, st.step + 1, st.fresh⟩ = some (.ok v, st2) →
       (∀ ps b cenv, v ≠ .Closure ps b cenv) →
       evalF fuel a st2 = some (.ok w, st3) →
       evalF (fuel + 1) (.Apply f a) st
         = some (.error "Trying to call a non-function", st3))
  ∧ (∀ (fuel : Nat) (f a : Expr) (st : St) (b : Expr) (cenv : Env) (w : Value)
       (st2 st3 : St),
       st.step + 1 ≤ 10000 →
       evalF fuel f ⟨st.env, st.step + 1, st.fresh⟩
         = some (.ok (.Closure [] b cenv), st2) →
       evalF fuel a st2 = some (.ok w, st3) →
       evalF (fuel + 1) (.Apply f a) st = some (.error "Too many arguments", st3)) := by
  refine ⟨fun fuel name st => ⟨fun hg => ?_, fun v hg => ?_⟩,
    fun fuel f a st v w st2 st3 hstep h1 hv h2 => ?_,
    fun fuel f a st b cenv w st2 st3 hstep h1 h2 => ?_⟩
  · simp [evalF, hg]
  · simp [evalF, hg]
  · have hif : ¬ st.step + 1 > 10000 := by omega
    simp only [evalF, if_neg hif, h1, h2]
    cases v with
    | Unit => rfl
    | Closure ps b cenv => exact absurd rfl (hv ps b cenv)
  · have hif : ¬ st.step + 1 > 10000 := by omega
    simp only [evalF, if_neg hif, h1, h2]

theorem eval_error_conditions_witness :
    evalF 2 (.Apply (.Lambda [] (.Var "q")) (.Sequence [])) ⟨[], 0, 0⟩
      = some (.error "Too many arguments", ⟨[], 1, 0⟩) :=
  eval_error_conditions.2.2 1 (.Lambda [] (.Var "q")) (.Sequence []) ⟨[], 0, 0⟩
    (.Var "q") [] .Unit ⟨[], 1, 0⟩ ⟨[], 1, 0⟩ (by decide) (by rfl) (by rfl)

/-- C9: when an element of a `Sequence` fails, the error propagates
immediately and the end-of-sequence restoration is skipped: a binding
inserted by an earlier Define of the same sequence is still present in
the state returned with the error. -/
theorem sequence_error_no_restore :
    ∀ (fuel : Nat) (x y : String) (rhs : Expr) (st : St) (v : Value) (st1 : St),
      evalF fuel rhs st = some (.ok v, st1) →
      envGet (envInsert st1.env x v) y = none →
      evalF (fuel + 1) (.Sequence [.Define x rhs, .Var y]) st
        = some (.error ("Undefined variable: " ++ y),
            ⟨envInsert st1.env x v, st1.step, st1.fresh⟩)
      ∧ envGet (envInsert st1.env x v) x = some v := by
  intro fuel x y rhs st v st1 h hy
  refine ⟨?_, envGet_insert_self _ _ _⟩
  cases fuel with
  | zero => simp [evalF] at h
  | succ g =>
    have hvar : evalF (g + 1) (.Var y) ⟨envInsert st1.env x v, st1.step, st1.fresh⟩
        = some (.error ("Undefined variable: " ++ y),
            ⟨envInsert st1.env x v, st1.step, st1.fresh⟩) := by
      simp [evalF, hy]
    have key : evalF (g + 1 + 1) (.Sequence [.Define x rhs, .Var y]) st =
        (match seqGo (evalF (g + 1)) [.Define x rhs, .Var y] st ⟨.Unit, [], []⟩ with
         | none => none
         | some (.error (m, stE)) => some (.error m, stE)
         | some (.ok (stO, acc)) =>
             some (.ok acc.last,
               ⟨insertAll (removeAll stO.env acc.defined) acc.olds,
                stO.step, stO.fresh⟩)) := rfl
    rw [key]
    cases hg : envGet st1.env x with
    | some old => simp only [seqGo, h, hg, hvar]
    | none => simp only [seqGo, h, hg, hvar]

theorem sequence_error_no_restore_witness :
    evalF 2 (.Sequence [.Define "x" (.Lambda ["a"] (.Var "a")), .Var "q"]) ⟨[], 0, 0⟩
      = some (.error ("Undefined variable: " ++ "q"),
          ⟨[("x", .Closure ["a"] (.Var "a") [])], 0, 0⟩)
    ∧ envGet [("x", Value.Closure ["a"] (.Var "a") [])] "x"
        = some (.Closure ["a"] (.Var "a") []) :=
  sequence_error_no_restore 1 "x" "q" (.Lambda ["a"] (.Var "a")) ⟨[], 0, 0⟩
    (.Closure ["a"] (.Var "a") []) ⟨[], 0, 0⟩ (by rfl) (by rfl)

/-- C10: the top-level loop `eval_document` evaluates every element
with `eval`, Defines included, so the program's result is the value of
the last element even when it is a Define, and nothing is removed or
restored afterwards: the Define's binding persists in the final
environment.  This differs from `eval` on the same nested Sequence,
which yields Unit and restores the environment. -/
theorem eval_document_trailing_define :
    (∀ (g : Nat) (es : List Expr) (st : St) (last : Value) (st1 : St) (x : String)
       (rhs : Expr) (v : Value) (st2 : St),
       docGo (evalF (g + 1)) es st .Unit = some (.ok last, st1) →
       evalF g rhs st1 = some (.ok v, st2) →
       evalDocF (g + 1) (.Sequence (es ++ [.Define x rhs])) st
         = some (.ok v, ⟨envInsert st2.env x v, st2.step, st2.fresh⟩)
       ∧ envGet (envInsert st2.env x v) x = some v)
  ∧ (evalDocF 2 (.Sequence [.Define "x" (.Lambda ["a"] (.Var "a"))]) ⟨[], 0, 0⟩
       = some (.ok (.Closure ["a"] (.Var "a") []),
           ⟨[("x", .Closure ["a"] (.Var "a") [])], 0, 0⟩))
  ∧ (evalF 2 (.Sequence [.Define "x" (.Lambda ["a"] (.Var "a"))]) ⟨[], 0, 0⟩
       = some (.ok .Unit, ⟨[], 0, 0⟩)) := by
  refine ⟨fun g es st last st1 x rhs v st2 hdoc hrhs => ⟨?_, envGet_insert_self _ _ _⟩,
    rfl, rfl⟩
  show docGo (evalF (g + 1)) (es ++ [.Define x rhs]) st .Unit = _
  rw [docGo_append, hdoc]
  simp only [docGo, evalF, hrhs]

theorem eval_document_trailing_define_witness :
    evalDocF 2 (.Sequence ([] ++ [.Define "x" (.Lambda ["a"] (.Var "a"))])) ⟨[], 0, 0⟩
      = some (.ok (.Closure ["a"] (.Var "a") []),
          ⟨envInsert [] "x" (.Closure ["a"] (.Var "a") []), 0, 0⟩)
    ∧ envGet (envInsert [] "x" (Value.Closure ["a"] (.Var "a") [])) "x"
        = some (.Closure ["a"] (.Var "a") []) :=
  eval_document_trailing_define.1 1 [] ⟨[], 0, 0⟩ .Unit ⟨[], 0, 0⟩ "x"
    (.Lambda ["a"] (.Var "a")) (.Closure ["a"] (.Var "a") []) ⟨[], 0, 0⟩
    (by rfl) (by rfl)
